import Mathlib

/-!
Verification of the `lice` license-header tool (src/main.rs) against its
natural-language specification.  The program is shallowly embedded: file
contents are lists of characters (`Str`), the Rust string primitives used by
the program (`trim_start`, `trim`, `lines`, `find`, `join`, `starts_with`,
`ends_with`) are reproduced as executable Lean functions, and the pure core
of each Rust function (`make_header_for_style`, the header check inside
`apply_license`, `replace_line_comment_header`, `is_excluded`,
`Config::validate` and the argument loop of `Config::from_env`) is translated
definition by definition.  File-system reads and writes are factored out:
`applyLicense` returns the content that `apply_license` would leave on disk.
-/

namespace Lice

/-- File contents and path components are modelled as lists of characters. -/
abbrev Str := List Char

/-- Coercion from a Lean string literal to the character-list model. -/
def s2l (s : String) : Str := s.data

/-- The Unicode White_Space property, the set used by Rust's
`char::is_whitespace` (and hence by `str::trim_start` / `trim_end` /
`trim`). -/
def isRustWs (c : Char) : Bool :=
  c = ' ' || c = '\t' || c = '\n' || c.toNat = 0x0B || c.toNat = 0x0C || c = '\r' ||
  c.toNat = 0x85 || c.toNat = 0xA0 || c.toNat = 0x1680 ||
  (0x2000 ≤ c.toNat && c.toNat ≤ 0x200A) ||
  c.toNat = 0x2028 || c.toNat = 0x2029 || c.toNat = 0x202F || c.toNat = 0x205F ||
  c.toNat = 0x3000

/-- Rust `str::trim_start`. -/
def trimStart (s : Str) : Str := s.dropWhile isRustWs

/-- Rust `str::trim_end`. -/
def trimEnd (s : Str) : Str := (s.reverse.dropWhile isRustWs).reverse

/-- Rust `str::trim` (leading and trailing whitespace removed). -/
def trim (s : Str) : Str := trimEnd (trimStart s)

/-- Rust `s.starts_with(p)`. -/
def startsWith (s p : Str) : Bool := p.isPrefixOf s

/-- Rust `s.ends_with(newline)`, the check guarding the final push in
`replace_line_comment_header`. -/
def endsWithNl (s : Str) : Bool :=
  match s.getLast? with
  | some c => c == '\n'
  | none => false

/-- Rust `str::split_inclusive(newline)`: the segments of a string, each
keeping its terminating newline; a last segment without a newline is kept,
an empty string yields no segments. -/
def splitInclusiveNl : Str → List Str
  | [] => []
  | c :: cs =>
    if c = '\n' then ['\n'] :: splitInclusiveNl cs
    else
      match splitInclusiveNl cs with
      | [] => [[c]]
      | l :: ls => (c :: l) :: ls

/-- Rust `str::strip_suffix(c)` for a single character. -/
def stripSuffixChar (c : Char) (s : Str) : Option Str :=
  match s.reverse with
  | [] => none
  | d :: r => if d = c then some r.reverse else none

/-- The per-segment map of Rust `str::lines`: drop the trailing newline if
present, then one trailing carriage return if present. -/
def linesMap (l : Str) : Str :=
  match stripSuffixChar '\n' l with
  | none => l
  | some l1 =>
    match stripSuffixChar '\r' l1 with
    | none => l1
    | some l2 => l2

/-- Rust `str::lines`. -/
def lines (s : Str) : List Str := (splitInclusiveNl s).map linesMap

/-- The suffix of `s` after its first newline, `none` if `s` has no
newline.  Models `content.find(newline).map(i+1)` followed by slicing. -/
def afterFirstNl : Str → Option Str
  | [] => none
  | c :: cs => if c = '\n' then some cs else afterFirstNl cs

/-- The suffix of `s` after the first occurrence of `pat`, `none` when `pat`
does not occur.  Models `content.find(pat)` followed by slicing at
`end_idx + pat.len()`. -/
def afterFirstOccur (pat : Str) : Str → Option Str
  | [] => if pat = [] then some [] else none
  | c :: cs =>
    if startsWith (c :: cs) pat then some ((c :: cs).drop pat.length)
    else afterFirstOccur pat cs

/-- Rust `slice::join(sep)` on a list of lines. -/
def joinSep (sep : Str) : List Str → Str
  | [] => []
  | [l] => l
  | l :: ls => l ++ sep ++ joinSep sep ls

/-- The final fix-up of `replace_line_comment_header`: push a newline when
the output does not already end with one. -/
def ensureNl (out : Str) : Str := if endsWithNl out then out else out ++ ['\n']

/-- The `LanguageProfile` struct of the source.  The Rust fields `prefix`
and `end` are Lean keywords and appear here as `pfx` and `endm`. -/
structure LanguageProfile where
  start : Str
  pfx : Str
  endm : Str
deriving DecidableEq, Repr

/-- `STYLE_C_LIKE` of the source. -/
def STYLE_C_LIKE : LanguageProfile := ⟨ s2l "/*\n", s2l " * ", s2l " */\n\n"⟩

/-- `STYLE_HASH` of the source (Python, Shell, Ruby). -/
def STYLE_HASH : LanguageProfile := ⟨ s2l "", s2l "# ", s2l "\n"⟩

/-- `STYLE_DOUBLE_SLASH` of the source (Rust, Go, Java, line mode). -/
def STYLE_DOUBLE_SLASH : LanguageProfile := ⟨ s2l "", s2l "// ", s2l "\n"⟩

/-- `STYLE_DASH` of the source (Lua, Haskell, SQL). -/
def STYLE_DASH : LanguageProfile := ⟨ s2l "", s2l "-- ", s2l "\n"⟩

/-- `get_language_style` of the source: extension to comment-style profile. -/
def getLanguageStyle (ext : Str) : Option LanguageProfile :=
  if ext = s2l "c" ∨ ext = s2l "h" ∨ ext = s2l "cpp" ∨ ext = s2l "hpp" ∨
      ext = s2l "css" then some STYLE_C_LIKE
  else if ext = s2l "rs" ∨ ext = s2l "go" ∨ ext = s2l "java" ∨ ext = s2l "js" ∨
      ext = s2l "ts" then some STYLE_DOUBLE_SLASH
  else if ext = s2l "py" ∨ ext = s2l "sh" ∨ ext = s2l "rb" ∨ ext = s2l "yaml" ∨
      ext = s2l "toml" then some STYLE_HASH
  else if ext = s2l "lua" ∨ ext = s2l "hs" ∨ ext = s2l "sql" then some STYLE_DASH
  else none

/-- The loop body of `make_header_for_style`: one prefixed, end-trimmed,
newline-terminated output line per template line. -/
def headerLines (pfx0 : Str) : List Str → Str
  | [] => []
  | l :: ls => pfx0 ++ trimEnd l ++ '\n' :: headerLines pfx0 ls

/-- `make_header_for_style` of the source: optional block opener, the
prefixed template lines, then the block closer or a single blank line. -/
def makeHeaderForStyle (raw : Str) (style : LanguageProfile) : Str :=
  (if style.start = [] then [] else style.start) ++
  headerLines style.pfx (lines raw) ++
  (if style.endm = [] then ['\n'] else style.endm)

/-- The shebang-adjusted view of the content used by the header check in
`apply_license`: when the content starts with an interpreter directive the
view begins just past the first newline (or at the start when there is no
newline, matching `unwrap_or(0)`). -/
def bodyView (content : Str) : Str :=
  if startsWith content (s2l "#!") then
    match afterFirstNl content with
    | some rest => rest
    | none => content
  else content

/-- The header check of `apply_license`: the trimmed body view starts with
the trimmed header. -/
def isCurrent (content header : Str) : Bool :=
  startsWith (trimStart (bodyView content)) (trim header)

/-- The scan loop of `replace_line_comment_header`, phrased on the suffix of
the line list it still has to look at: the number of lines the loop advances
past.  A line whose trimmed form starts with the trimmed prefix is skipped;
a blank line is consumed and the loop stops; any other line stops the loop
unconsumed. -/
def scanCount (pfxTrim : Str) : List Str → Nat
  | [] => 0
  | l :: ls =>
    if startsWith (trim l) pfxTrim then scanCount pfxTrim ls + 1
    else if trim l = [] then 1
    else 0

/-- The value of `keep_start_idx` after the while loop of
`replace_line_comment_header`, starting the scan at index `i`. -/
def scanIdx (ls : List Str) (pfxTrim : Str) (i : Nat) : Nat :=
  i + scanCount pfxTrim (ls.drop i)

/-- `replace_line_comment_header` of the source: record a shebang first
line, scan past the stale header lines, rejoin the remaining lines and
re-assemble shebang, header and body, ensuring a trailing newline. -/
def replaceLineCommentHeader (content header : Str) (style : LanguageProfile) : Str :=
  let ls := lines content
  let sb : Option Str :=
    match ls.head? with
    | some firstLine =>
      if startsWith firstLine (s2l "#!") then some firstLine else none
    | none => none
  let start0 : Nat := match sb with | some _ => 1 | none => 0
  let k := scanIdx ls (trim style.pfx) start0
  let body := joinSep ['\n'] (ls.drop k)
  let out :=
    (match sb with
     | some l => l ++ ['\n']
     | none => []) ++ header ++ body
  ensureNl out

/-- The pure core of `apply_license`: the content the function leaves on
disk.  When the header check succeeds the file is not rewritten; block
styles replace a terminated leading block or prepend the header (also when
the block is unterminated); line styles delegate to
`replaceLineCommentHeader`. -/
def applyLicense (raw : Str) (style : LanguageProfile) (content : Str) : Str :=
  let header := makeHeaderForStyle raw style
  if isCurrent content header then content
  else if style.start ≠ [] then
    if startsWith (trimStart content) style.start then
      match afterFirstOccur style.endm content with
      | some body => header ++ trimStart body
      | none => header ++ content
    else header ++ content
  else replaceLineCommentHeader content header style

/-- `is_excluded` of the source.  A path is modelled as its list of
components; a component is `none` when its `OsStr` is not valid UTF-8, and
`some s` with its text otherwise. -/
def isExcluded (excludes : List Str) (comps : List (Option Str)) : Bool :=
  match comps with
  | [] => false
  | some s :: rest =>
    if excludes.contains s then true else isExcluded excludes rest
  | none :: _ => true

/-- The `Config` struct of the source. -/
structure Config where
  license_file : Option Str
  excludes : List Str
  targets : List Str
  jobs : Option Nat
deriving DecidableEq

/-- What the configuration stage of the program does with a raw argument
list: print the usage text and exit 0 (`showHelp`), exit 1 with an error
(`fail`, the `Err` path of `from_env` that `main` turns into `exit(1)`), or
proceed with a validated configuration (`ok`). -/
inductive CliOutcome where
  | showHelp
  | fail (msg : Str)
  | ok (c : Config)
deriving DecidableEq

/-- Rust `usize::from_str` as used for `-j`: an optional plus sign followed
by at least one ASCII digit (overflow, irrelevant here, is not modelled). -/
def parseUsize (s : Str) : Option Nat :=
  let digits := match s with
    | '+' :: rest => rest
    | _ => s
  if digits ≠ [] ∧ digits.all (fun c => c.isDigit) then
    some (digits.foldl (fun acc c => acc * 10 + (c.toNat - 48)) 0)
  else none

/-- `Config::validate` of the source. -/
def validate (c : Config) : CliOutcome :=
  if c.license_file = none then
    .fail (s2l "Missing required argument: -f/--file")
  else if c.targets = [] then
    .fail (s2l "No target paths specified. Use '.' for current directory.")
  else .ok c

/-- The argument loop of `Config::from_env`. -/
def parseLoop : List Str → Config → CliOutcome
  | [], c => validate c
  | a :: rest, c =>
    if a = s2l "-f" ∨ a = s2l "--file" then
      match rest with
      | [] => .fail (s2l "-f/--file requires an argument")
      | v :: rest2 => parseLoop rest2 { c with license_file := some v }
    else if a = s2l "-e" ∨ a = s2l "--exclude" then
      match rest with
      | [] => .fail (s2l "-e/--exclude requires an argument")
      | v :: rest2 => parseLoop rest2 { c with excludes := c.excludes ++ [v] }
    else if a = s2l "-h" ∨ a = s2l "--help" then .showHelp
    else if a = s2l "-j" ∨ a = s2l "--jobs" then
      match rest with
      | [] => .fail (s2l "-j requires an argument")
      | v :: rest2 =>
        match parseUsize v with
        | none => .fail (s2l "Invalid number for -j")
        | some n => parseLoop rest2 { c with jobs := some n }
    else if startsWith a (s2l "-") then .fail (s2l "Unknown option: " ++ a)
    else parseLoop rest { c with targets := c.targets ++ [a] }

/-- `Config::from_env` on a given raw argument list (the process arguments
after the binary name): an empty list prints the usage text and exits 0,
otherwise the argument loop runs and the result is validated. -/
def fromArgs (raw : List Str) : CliOutcome :=
  if raw = [] then .showHelp
  else parseLoop raw ⟨none, [], [], none⟩

/-- `process_file` restricted to its transformation of one file's content:
a path whose extension has no registered style (or no extension at all,
`styleOf` returning `none`) leaves the content alone; otherwise
`apply_license` runs. -/
def procOne (raw : Str) (sty : Option LanguageProfile) (content : Str) : Str :=
  match sty with
  | none => content
  | some st => applyLicense raw st content

/-- A run of the engine over a schedule: the file states (a map from path
to content) after the per-file pipeline has been executed once for each
entry of `sched`, in that order.  A schedule is the order in which the
per-file jobs complete; the single-threaded mode executes the traversal
order itself, the worker pool executes some permutation of it.  Two workers
never hold the same path, so a job is an atomic update of its own key.
The helper `updSt` is one completed job: the content at `p` is replaced by
the pipeline's output on it. -/
def updSt {α : Type} [DecidableEq α] (raw : Str)
    (styleOf : α → Option LanguageProfile) (p : α) (st : α → Str) : α → Str :=
  fun q => if q = p then procOne raw (styleOf p) (st p) else st q

/-- The file states after every job of the schedule has completed. -/
def runSched {α : Type} [DecidableEq α] (raw : Str)
    (styleOf : α → Option LanguageProfile) :
    List α → (α → Str) → (α → Str)
  | [], st => st
  | p :: rest, st => runSched raw styleOf rest (updSt raw styleOf p st)

/-- Modelled from the spec, section 4.4, line style, step 2: the scan over
the lines after the optional directive line.  A line whose trimmed form
starts with the profile's trimmed prefix is part of the stale header and is
skipped; the first blank line is consumed and the scan stops immediately
after it; a line that is neither stops the scan without being consumed.
The value is the list of remaining (kept) lines. -/
def scanSpec (pfxTrim : Str) : List Str → List Str
  | [] => []
  | l :: ls =>
    if startsWith (trim l) pfxTrim then scanSpec pfxTrim ls
    else if trim l = [] then ls
    else l :: ls

/-- Modelled from the spec, section 4.4, line style, steps 1 and 3: split
into lines, set the directive line apart, scan, and reassemble directive
line (if any) plus header plus remaining lines joined by newline, with a
trailing newline ensured. -/
def replaceLineSpec (content header : Str) (style : LanguageProfile) : Str :=
  match lines content with
  | [] => ensureNl (header ++ joinSep ['\n'] (scanSpec (trim style.pfx) []))
  | fl :: rest =>
    if startsWith fl (s2l "#!") then
      ensureNl (fl ++ '\n' :: (header ++ joinSep ['\n'] (scanSpec (trim style.pfx) rest)))
    else
      ensureNl (header ++ joinSep ['\n'] (scanSpec (trim style.pfx) (fl :: rest)))

/-- The first line of a content, excluding any line terminator: the
characters before the first newline. -/
def firstLineOf (s : Str) : Str := s.takeWhile (fun c => !(c == '\n'))

/-- A file content written with CRLF line endings: every logical line is
terminated by a carriage return and a newline. -/
def crlfConcat : List Str → Str
  | [] => []
  | l :: ls => l ++ '\r' :: '\n' :: crlfConcat ls

/-- The same file content written with bare LF line endings. -/
def lfConcat : List Str → Str
  | [] => []
  | l :: ls => l ++ '\n' :: lfConcat ls

/-! Helper lemmas about the embedded string primitives. -/

/-- Boolean prefix test versus the propositional prefix relation. -/
lemma startsWith_iff {s p : Str} : startsWith s p = true ↔ p <+: s := by
  simp [startsWith, List.isPrefixOf_iff_prefix]

/-- Trailing trimming only removes a suffix. -/
lemma trimEnd_pre (s : Str) : trimEnd s <+: s := by
  have h := List.dropWhile_suffix (l := s.reverse) isRustWs
  have h2 : (s.reverse.dropWhile isRustWs).reverse <+: s.reverse.reverse :=
    List.reverse_prefix.mpr h
  simpa [trimEnd] using h2

/-- Full trimming yields a prefix of start-trimming. -/
lemma trim_pre_trimStart (s : Str) : trim s <+: trimStart s := trimEnd_pre _

/-- Start-trimming an appended string either stops inside the first part or
consumes all of it. -/
lemma trimStart_append_or (a b : Str) :
    trimStart (a ++ b) = trimStart a ++ b ∨ trimStart a = [] := by
  induction a with
  | nil => right; rfl
  | cons c a ih =>
    by_cases hc : isRustWs c = true
    · simpa [trimStart, List.dropWhile_cons, hc] using ih
    · left; simp [trimStart, List.dropWhile_cons, hc]

/-- The trimmed header is a prefix of the start-trimmed content whenever the
content begins with the raw header. -/
lemma trim_pre_trimStart_append (h y : Str) : trim h <+: trimStart (h ++ y) := by
  rcases trimStart_append_or h y with heq | hnil
  · rw [heq]
    exact (trim_pre_trimStart h).trans (List.prefix_append _ _)
  · have : trim h = [] := by rw [trim, hnil]; rfl
    rw [this]
    exact List.nil_prefix

/-- The header check succeeds on any content of the form header-then-rest
when that content does not begin with an interpreter directive. -/
lemma isCurrent_append (h y : Str)
    (hns : startsWith (h ++ y) (s2l "#!") = false) :
    isCurrent (h ++ y) h = true := by
  unfold isCurrent bodyView
  rw [hns]
  simp only [Bool.false_eq_true, if_false]
  exact startsWith_iff.mpr (trim_pre_trimStart_append h y)

/-- Characterization of the single-character suffix stripper. -/
lemma stripSuffixChar_eq_some {c : Char} {s r : Str} :
    stripSuffixChar c s = some r ↔ s = r ++ [c] := by
  constructor
  · intro h
    unfold stripSuffixChar at h
    cases hr : s.reverse with
    | nil => rw [hr] at h; exact absurd h (by simp)
    | cons d t =>
      rw [hr] at h
      by_cases hd : d = c
      · simp only [hd, if_true, Option.some.injEq] at h
        have hs : s = (d :: t).reverse := by rw [← hr, List.reverse_reverse]
        rw [hs, ← h, hd]
        simp
      · simp [hd] at h
  · intro h
    subst h
    simp [stripSuffixChar]

/-- Strip of an explicit appended character. -/
lemma stripSuffixChar_append (c : Char) (a : Str) :
    stripSuffixChar c (a ++ [c]) = some a :=
  stripSuffixChar_eq_some.mpr rfl

/-- A character never stripped: when `c` does not occur in `s` the stripper
fails. -/
lemma stripSuffixChar_of_not_mem {c : Char} {s : Str} (h : c ∉ s) :
    stripSuffixChar c s = none := by
  cases hr : stripSuffixChar c s with
  | none => rfl
  | some r =>
    exact absurd (stripSuffixChar_eq_some.mp hr ▸ (by simp : c ∈ r ++ [c])) h

/-- A segment with no newline and no carriage return maps to itself after
appending its newline terminator. -/
lemma linesMap_clean {a : Str} (hr : '\r' ∉ a) :
    linesMap (a ++ ['\n']) = a := by
  simp only [linesMap, stripSuffixChar_append, stripSuffixChar_of_not_mem hr]

/-- Characters of a mapped segment come from the segment. -/
lemma linesMap_sub {seg : Str} {x : Char} (hx : x ∈ linesMap seg) : x ∈ seg := by
  simp only [linesMap] at hx
  cases h1 : stripSuffixChar '\n' seg with
  | none => simpa only [h1] using hx
  | some l1 =>
    have hseg := stripSuffixChar_eq_some.mp h1
    simp only [h1] at hx
    cases h2 : stripSuffixChar '\r' l1 with
    | none =>
      simp only [h2] at hx
      subst hseg
      exact List.mem_append_left _ hx
    | some l2 =>
      have hl1 := stripSuffixChar_eq_some.mp h2
      simp only [h2] at hx
      subst hseg hl1
      exact List.mem_append_left _ (List.mem_append_left _ hx)

/-- Characters of a mapped newline-terminated segment come from the part
before the newline. -/
lemma linesMap_append_sub {a : Str} {x : Char}
    (hx : x ∈ linesMap (a ++ ['\n'])) : x ∈ a := by
  simp only [linesMap, stripSuffixChar_append] at hx
  cases h2 : stripSuffixChar '\r' a with
  | none => simpa only [h2] using hx
  | some r =>
    have ha := stripSuffixChar_eq_some.mp h2
    simp only [h2] at hx
    subst ha
    exact List.mem_append_left _ hx

/-- Splitting distributes over the first newline when the part before it is
newline-free. -/
lemma splitInclusiveNl_append {a : Str} (b : Str) (hn : '\n' ∉ a) :
    splitInclusiveNl (a ++ '\n' :: b) = (a ++ ['\n']) :: splitInclusiveNl b := by
  induction a with
  | nil => simp [splitInclusiveNl]
  | cons c a ih =>
    have hc : c ≠ '\n' := fun h => hn (h ▸ List.mem_cons_self c a)
    have hn2 : '\n' ∉ a := fun h => hn (List.mem_cons_of_mem c h)
    simp only [List.cons_append, splitInclusiveNl, hc, if_false, List.append_eq,
      ih hn2]

/-- The first line of a content that starts with a clean line. -/
lemma lines_append {a : Str} (b : Str) (hn : '\n' ∉ a) :
    lines (a ++ '\n' :: b) = linesMap (a ++ ['\n']) :: lines b := by
  unfold lines
  rw [splitInclusiveNl_append b hn]
  rfl

/-- Every segment produced by inclusive splitting is newline-free up to an
optional final newline. -/
lemma splitInclusiveNl_shape {s : Str} {seg : Str} (h : seg ∈ splitInclusiveNl s) :
    (∃ a, seg = a ++ ['\n'] ∧ '\n' ∉ a) ∨ '\n' ∉ seg := by
  induction s generalizing seg with
  | nil => simp [splitInclusiveNl] at h
  | cons c cs ih =>
    by_cases hc : c = '\n'
    · subst hc
      simp only [splitInclusiveNl, if_true] at h
      rcases List.mem_cons.mp h with h1 | h2
      · exact Or.inl ⟨[], by simpa using h1, by simp⟩
      · exact ih h2
    · simp only [splitInclusiveNl, hc, if_false] at h
      cases hsp : splitInclusiveNl cs with
      | nil =>
        rw [hsp] at h
        rcases List.mem_singleton.mp h with h1
        subst h1
        exact Or.inr (by simpa using Ne.symm hc)
      | cons l ls =>
        rw [hsp] at h
        rcases List.mem_cons.mp h with h1 | h2
        · subst h1
          rcases ih (hsp ▸ List.mem_cons_self l ls) with ⟨a, ha, hna⟩ | hfree
          · exact Or.inl ⟨c :: a, by simp [ha], by
              intro hm
              rcases List.mem_cons.mp hm with h3 | h4
              · exact hc h3.symm
              · exact hna h4⟩
          · exact Or.inr (by
              intro hm
              rcases List.mem_cons.mp hm with h3 | h4
              · exact hc h3.symm
              · exact hfree h4)
        · exact ih (hsp ▸ List.mem_cons_of_mem l h2)

/-- Lines produced by the splitter contain no newline. -/
lemma lines_no_nl {s l : Str} (h : l ∈ lines s) : '\n' ∉ l := by
  unfold lines at h
  rcases List.mem_map.mp h with ⟨seg, hseg, hmap⟩
  subst hmap
  intro hm
  rcases splitInclusiveNl_shape hseg with ⟨a, ha, hna⟩ | hfree
  · subst ha
    exact hna (linesMap_append_sub hm)
  · exact hfree (linesMap_sub hm)

/-- The view past the first newline of a shebang-led content. -/
lemma afterFirstNl_append {a : Str} (b : Str) (hn : '\n' ∉ a) :
    afterFirstNl (a ++ '\n' :: b) = some b := by
  induction a with
  | nil => simp [afterFirstNl]
  | cons c a ih =>
    have hc : c ≠ '\n' := fun h => hn (h ▸ List.mem_cons_self c a)
    simp only [List.cons_append, afterFirstNl, hc, if_false]
    exact ih (fun h => hn (List.mem_cons_of_mem c h))

/-- Ensuring a final newline only appends. -/
lemma ensureNl_eq_append (s : Str) : ∃ t, ensureNl s = s ++ t := by
  unfold ensureNl
  by_cases h : endsWithNl s = true
  · exact ⟨[], by simp [h]⟩
  · exact ⟨['\n'], by simp [h]⟩

/-- A string headed by a character other than a hash sign is no interpreter
directive. -/
lemma notShebang_head {c : Char} (rest : Str) (hc : c ≠ '#') :
    startsWith (c :: rest) (s2l "#!") = false := by
  have h1 : ('#' == c) = false := beq_eq_false_iff_ne.mpr (Ne.symm hc)
  have h2 : s2l "#!" = ['#', '!'] := rfl
  rw [h2]
  simp [startsWith, List.isPrefixOf, h1]

/-- A string whose second character is not a bang is no interpreter
directive. -/
lemma notShebang_two {d : Char} (c : Char) (rest : Str) (hd : d ≠ '!') :
    startsWith (c :: d :: rest) (s2l "#!") = false := by
  have h1 : ('!' == d) = false := beq_eq_false_iff_ne.mpr (Ne.symm hd)
  have h2 : s2l "#!" = ['#', '!'] := rfl
  rw [h2]
  simp [startsWith, List.isPrefixOf, h1]

/-- The header check succeeds on shebang-then-header-then-rest content. -/
lemma isCurrent_shebang (sb h y : Str)
    (hsb : startsWith sb (s2l "#!") = true) (hnl : '\n' ∉ sb) :
    isCurrent (sb ++ '\n' :: (h ++ y)) h = true := by
  unfold isCurrent bodyView
  have h1 : startsWith (sb ++ '\n' :: (h ++ y)) (s2l "#!") = true := by
    rw [startsWith_iff] at hsb ⊢
    exact hsb.trans (List.prefix_append _ _)
  rw [h1, afterFirstNl_append _ hnl]
  simp only [if_true]
  exact startsWith_iff.mpr (trim_pre_trimStart_append h y)

/-- The block-style header opens with a slash and a star. -/
lemma header_c_shape (raw : Str) :
    ∃ r, makeHeaderForStyle raw STYLE_C_LIKE = '/' :: '*' :: r :=
  ⟨'\n' :: (headerLines (s2l " * ") (lines raw) ++ s2l " */\n\n"), by
    simp [makeHeaderForStyle, STYLE_C_LIKE, headerLines, s2l]⟩

/-- A line-style header is a lone blank line (empty template) or opens with
the style's line prefix. -/
lemma header_line_shape (raw : Str) (style : LanguageProfile)
    (hstart : style.start = []) (hend : style.endm = ['\n']) :
    makeHeaderForStyle raw style = ['\n'] ∨
    ∃ r, makeHeaderForStyle raw style = style.pfx ++ r := by
  unfold makeHeaderForStyle
  rw [hstart, hend]
  cases hl : lines raw with
  | nil => left; rfl
  | cons l t =>
    right
    refine ⟨trimEnd l ++ '\n' :: (headerLines style.pfx t ++ ['\n']), ?_⟩
    simp [headerLines]

/-- The line-style replacer's output either starts with the header it was
given or with the recorded shebang line, a newline, then the header. -/
lemma replaceLine_shape (content h : Str) (style : LanguageProfile) :
    (∃ y, replaceLineCommentHeader content h style = h ++ y) ∨
    (∃ sb y, replaceLineCommentHeader content h style = sb ++ '\n' :: (h ++ y) ∧
      startsWith sb (s2l "#!") = true ∧ '\n' ∉ sb) := by
  cases hl : lines content with
  | nil =>
    left
    obtain ⟨t, ht⟩ := ensureNl_eq_append
      (([] : Str) ++ h ++ joinSep ['\n'] ((lines content).drop
        (scanIdx (lines content) (trim style.pfx) 0)))
    refine ⟨joinSep ['\n'] ((lines content).drop
      (scanIdx (lines content) (trim style.pfx) 0)) ++ t, ?_⟩
    unfold replaceLineCommentHeader
    simp only [hl]
    rw [hl] at ht
    simpa [List.append_assoc] using ht
  | cons fl rest =>
    by_cases hsb : startsWith fl (s2l "#!") = true
    · right
      have hnl : '\n' ∉ fl :=
        lines_no_nl (by rw [hl]; exact List.mem_cons_self fl rest)
      obtain ⟨t, ht⟩ := ensureNl_eq_append
        ((fl ++ ['\n']) ++ h ++ joinSep ['\n'] ((lines content).drop
          (scanIdx (lines content) (trim style.pfx) 1)))
      refine ⟨fl, joinSep ['\n'] ((lines content).drop
        (scanIdx (lines content) (trim style.pfx) 1)) ++ t, ?_, hsb, hnl⟩
      unfold replaceLineCommentHeader
      simp only [hl, List.head?_cons, hsb, if_true]
      rw [hl] at ht
      simpa [List.append_assoc] using ht
    · left
      obtain ⟨t, ht⟩ := ensureNl_eq_append
        (([] : Str) ++ h ++ joinSep ['\n'] ((lines content).drop
          (scanIdx (lines content) (trim style.pfx) 0)))
      refine ⟨joinSep ['\n'] ((lines content).drop
        (scanIdx (lines content) (trim style.pfx) 0)) ++ t, ?_⟩
      unfold replaceLineCommentHeader
      simp only [hl, List.head?_cons, hsb, if_false]
      rw [hl] at ht
      simpa [List.append_assoc] using ht

/-- With a header that can never look like an interpreter directive, the
line-style replacer's output always passes the header check. -/
lemma isCurrent_replaceLine (content h : Str) (style : LanguageProfile)
    (hns : ∀ y, startsWith (h ++ y) (s2l "#!") = false) :
    isCurrent (replaceLineCommentHeader content h style) h = true := by
  rcases replaceLine_shape content h style with ⟨y, hy⟩ | ⟨sb, y, hy, hsb, hnl⟩
  · rw [hy]; exact isCurrent_append _ _ (hns y)
  · rw [hy]; exact isCurrent_shebang _ _ _ hsb hnl

/-- The block-style header never looks like an interpreter directive. -/
lemma c_like_notShebang (raw : Str) :
    ∀ y, startsWith (makeHeaderForStyle raw STYLE_C_LIKE ++ y) (s2l "#!") = false := by
  intro y
  obtain ⟨r, hr⟩ := header_c_shape raw
  rw [hr]
  exact notShebang_head _ (by decide)

/-- No line-style header of the registered styles looks like an interpreter
directive, whatever the template. -/
lemma line_notShebang (raw : Str) (style : LanguageProfile)
    (hsty : style = STYLE_DOUBLE_SLASH ∨ style = STYLE_HASH ∨ style = STYLE_DASH) :
    ∀ y, startsWith (makeHeaderForStyle raw style ++ y) (s2l "#!") = false := by
  intro y
  have hstart : style.start = [] := by
    rcases hsty with h | h | h <;> subst h <;> rfl
  have hend : style.endm = ['\n'] := by
    rcases hsty with h | h | h <;> subst h <;> rfl
  rcases header_line_shape raw style hstart hend with hb | ⟨r, hr⟩
  · rw [hb]
    exact notShebang_head _ (by decide)
  · rw [hr]
    rcases hsty with h | h | h <;> subst h
    · exact notShebang_head _ (by decide)
    · have hsh : ('#' :: ' ' :: ([] : Str)) ++ r ++ y =
          '#' :: ' ' :: (r ++ y) := by simp
      show startsWith (('#' :: ' ' :: []) ++ r ++ y) (s2l "#!") = false
      rw [hsh]
      exact notShebang_two _ _ (by decide)
    · exact notShebang_head _ (by decide)

/-- Whatever `apply_license` writes passes the header check: the producing
run establishes currency for every later run. -/
lemma isCurrent_applyLicense (raw content : Str) (style : LanguageProfile)
    (hsty : style = STYLE_C_LIKE ∨ style = STYLE_DOUBLE_SLASH ∨
      style = STYLE_HASH ∨ style = STYLE_DASH) :
    isCurrent (applyLicense raw style content) (makeHeaderForStyle raw style) = true := by
  unfold applyLicense
  by_cases hc : isCurrent content (makeHeaderForStyle raw style) = true
  · simp only [hc, if_true]
  · rcases hsty with h | h | h | h
    · subst h
      have hstart : (STYLE_C_LIKE.start ≠ ([] : Str)) := by decide
      simp only [hc, if_false, hstart, if_true, Bool.false_eq_true]
      by_cases hblock :
          startsWith (trimStart content) STYLE_C_LIKE.start = true
      · simp only [hblock, if_true]
        cases hocc : afterFirstOccur STYLE_C_LIKE.endm content with
        | some body => exact isCurrent_append _ _ (c_like_notShebang raw _)
        | none => exact isCurrent_append _ _ (c_like_notShebang raw _)
      · simp only [hblock, Bool.false_eq_true, if_false]
        exact isCurrent_append _ _ (c_like_notShebang raw _)
    all_goals subst h
    · have hstart : ¬ (STYLE_DOUBLE_SLASH.start ≠ ([] : Str)) := by decide
      simp only [hc, if_false, hstart, Bool.false_eq_true]
      exact isCurrent_replaceLine _ _ _ (line_notShebang raw _ (Or.inl rfl))
    · have hstart : ¬ (STYLE_HASH.start ≠ ([] : Str)) := by decide
      simp only [hc, if_false, hstart, Bool.false_eq_true]
      exact isCurrent_replaceLine _ _ _ (line_notShebang raw _ (Or.inr (Or.inl rfl)))
    · have hstart : ¬ (STYLE_DASH.start ≠ ([] : Str)) := by decide
      simp only [hc, if_false, hstart, Bool.false_eq_true]
      exact isCurrent_replaceLine _ _ _ (line_notShebang raw _ (Or.inr (Or.inr rfl)))

/-- The style table only ever serves the four registered profiles. -/
lemma style_cases {ext : Str} {style : LanguageProfile}
    (h : getLanguageStyle ext = some style) :
    style = STYLE_C_LIKE ∨ style = STYLE_DOUBLE_SLASH ∨
    style = STYLE_HASH ∨ style = STYLE_DASH := by
  unfold getLanguageStyle at h
  split_ifs at h
  · exact Or.inl (Option.some.inj h).symm
  · exact Or.inr (Or.inl (Option.some.inj h).symm)
  · exact Or.inr (Or.inr (Or.inl (Option.some.inj h).symm))
  · exact Or.inr (Or.inr (Or.inr (Option.some.inj h).symm))

/-- A content the header check accepts is left untouched. -/
lemma applyLicense_of_current (raw content : Str) (style : LanguageProfile)
    (h : isCurrent content (makeHeaderForStyle raw style) = true) :
    applyLicense raw style content = content := by
  unfold applyLicense
  simp [h]

/-- Claim C4: whatever content a run of the per-file pipeline produces, a
second run with the same template and style finds the header current and
returns the content byte-identically. -/
theorem applyLicense_idempotent (ext : Str) (style : LanguageProfile)
    (raw content : Str) (h : getLanguageStyle ext = some style) :
    isCurrent (applyLicense raw style content) (makeHeaderForStyle raw style) = true ∧
    applyLicense raw style (applyLicense raw style content) =
      applyLicense raw style content := by
  have hcur := isCurrent_applyLicense raw content style (style_cases h)
  exact ⟨hcur, applyLicense_of_current _ _ _ hcur⟩

/-- Witness for C4 at a concrete extension, template and content. -/
theorem applyLicense_idempotent_inst :
    isCurrent (applyLicense (s2l "Copyright X") STYLE_HASH (s2l "y = 1\n"))
      (makeHeaderForStyle (s2l "Copyright X") STYLE_HASH) = true ∧
    applyLicense (s2l "Copyright X") STYLE_HASH
      (applyLicense (s2l "Copyright X") STYLE_HASH (s2l "y = 1\n")) =
      applyLicense (s2l "Copyright X") STYLE_HASH (s2l "y = 1\n") :=
  applyLicense_idempotent (s2l "py") STYLE_HASH (s2l "Copyright X") (s2l "y = 1\n")
    (by decide)

/-- Claim C5: for every extension the style table serves and every template,
the synthesized header fed back as file content passes the header check. -/
theorem header_roundtrip_current (ext : Str) (style : LanguageProfile) (raw : Str)
    (h : getLanguageStyle ext = some style) :
    isCurrent (makeHeaderForStyle raw style) (makeHeaderForStyle raw style) = true := by
  have hns : startsWith (makeHeaderForStyle raw style ++ []) (s2l "#!") = false := by
    rcases style_cases h with hs | hs | hs | hs
    · rw [hs]; exact c_like_notShebang raw []
    · rw [hs]; exact line_notShebang raw _ (Or.inl rfl) []
    · rw [hs]; exact line_notShebang raw _ (Or.inr (Or.inl rfl)) []
    · rw [hs]; exact line_notShebang raw _ (Or.inr (Or.inr rfl)) []
  have h2 := isCurrent_append (makeHeaderForStyle raw style) [] hns
  simpa using h2

/-- Witness for C5 at a concrete extension and template. -/
theorem header_roundtrip_current_inst :
    isCurrent (makeHeaderForStyle (s2l "Copyright X") STYLE_DOUBLE_SLASH)
      (makeHeaderForStyle (s2l "Copyright X") STYLE_DOUBLE_SLASH) = true :=
  header_roundtrip_current (s2l "rs") STYLE_DOUBLE_SLASH (s2l "Copyright X")
    (by decide)

/-- Counterexample to claim C1: a block-style file that opens a block
comment and never closes it is not left byte-identical by a run. -/
theorem unterminated_block_changed :
    applyLicense (s2l "L") STYLE_C_LIKE (s2l "/*\nx") ≠ s2l "/*\nx" := by decide

/-- Claim C1 as amended: on a block-comment-style profile, a content that
(after trimming leading whitespace) opens with the profile's start marker
but has no occurrence of its end marker, and whose header is not already
current, is not skipped: the synthesized header is prepended in front of
the unchanged original content. -/
theorem unterminated_block_prepends (raw content : Str) (style : LanguageProfile)
    (hblock : style.start ≠ [])
    (hcur : isCurrent content (makeHeaderForStyle raw style) = false)
    (hopen : startsWith (trimStart content) style.start = true)
    (hend : afterFirstOccur style.endm content = none) :
    applyLicense raw style content = makeHeaderForStyle raw style ++ content := by
  unfold applyLicense
  simp [hcur, hblock, hopen, hend]

/-- Witness for the amended C1 at the concrete counterexample input. -/
theorem unterminated_block_prepends_inst :
    applyLicense (s2l "L") STYLE_C_LIKE (s2l "/*\nx") =
      makeHeaderForStyle (s2l "L") STYLE_C_LIKE ++ s2l "/*\nx" :=
  unterminated_block_prepends (s2l "L") (s2l "/*\nx") STYLE_C_LIKE
    (by decide) (by decide) (by decide) (by decide)

/-- Counterexample to claim C2: the first line is not preserved for the
block style (the header lands in front of the shebang), nor byte-exactly
for a CRLF-terminated directive line under a line style (its carriage
return is stripped). -/
theorem shebang_not_preserved :
    firstLineOf (applyLicense (s2l "L") STYLE_C_LIKE (s2l "#!/bin/sh\nint x;\n")) ≠
      firstLineOf (s2l "#!/bin/sh\nint x;\n") ∧
    firstLineOf (applyLicense (s2l "L") STYLE_HASH (s2l "#!/bin/sh\r\necho\n")) ≠
      firstLineOf (s2l "#!/bin/sh\r\necho\n") := by
  constructor <;> decide

/-- Claim C2 as amended: under the line-comment styles, a content whose
first line is an interpreter directive terminated by a newline and free of
carriage returns keeps exactly that first line after a run. -/
theorem line_style_preserves_shebang (raw sb rest : Str) (style : LanguageProfile)
    (hsty : style = STYLE_DOUBLE_SLASH ∨ style = STYLE_HASH ∨ style = STYLE_DASH)
    (hsb : startsWith sb (s2l "#!") = true) (hnl : '\n' ∉ sb) (hcr : '\r' ∉ sb) :
    ∃ z, applyLicense raw style (sb ++ '\n' :: rest) = sb ++ '\n' :: z := by
  by_cases hcur :
      isCurrent (sb ++ '\n' :: rest) (makeHeaderForStyle raw style) = true
  · exact ⟨rest, applyLicense_of_current _ _ _ hcur⟩
  · have hstart : ¬ (style.start ≠ ([] : Str)) := by
      rcases hsty with h | h | h <;> subst h <;> decide
    have hlines : lines (sb ++ '\n' :: rest) = sb :: lines rest := by
      rw [lines_append rest hnl, linesMap_clean hcr]
    unfold applyLicense
    simp only [hcur, Bool.false_eq_true, if_false, hstart]
    unfold replaceLineCommentHeader
    simp only [hlines, List.head?_cons, hsb, if_true]
    rcases ensureNl_eq_append ((sb ++ ['\n']) ++ makeHeaderForStyle raw style ++
      joinSep ['\n'] ((sb :: lines rest).drop
        (scanIdx (sb :: lines rest) (trim style.pfx) 1))) with ⟨t, ht⟩
    refine ⟨makeHeaderForStyle raw style ++
      (joinSep ['\n'] ((sb :: lines rest).drop
        (scanIdx (sb :: lines rest) (trim style.pfx) 1)) ++ t), ?_⟩
    rw [ht]
    simp [List.append_assoc]

/-- Witness for the amended C2 at a concrete line-style input. -/
theorem line_style_preserves_shebang_inst :
    ∃ z, applyLicense (s2l "L") STYLE_HASH (s2l "#!/bin/sh" ++ '\n' :: s2l "echo\n") =
      s2l "#!/bin/sh" ++ '\n' :: z :=
  line_style_preserves_shebang (s2l "L") (s2l "#!/bin/sh") (s2l "echo\n") STYLE_HASH
    (Or.inr (Or.inl rfl)) (by decide) (by decide) (by decide)

/-- Claim C3: the worked example of the spec, byte for byte: the synthesized
hash-style header for the two-line template, and the rewrite of a
shebang-led Python file. -/
theorem python_example :
    makeHeaderForStyle (s2l "Copyright X\nAll rights reserved") STYLE_HASH =
      s2l "# Copyright X\n# All rights reserved\n\n" ∧
    applyLicense (s2l "Copyright X\nAll rights reserved") STYLE_HASH
      (s2l "#!/usr/bin/env python\nprint(1)\n") =
      s2l "#!/usr/bin/env python\n# Copyright X\n# All rights reserved\n\nprint(1)\n" := by
  constructor <;> decide

/-- The index-based while loop of the source drops exactly the lines that
the spec's structural scan discards. -/
lemma scan_drop (t : Str) :
    ∀ (suf : List Str) (ls : List Str) (i : Nat), ls.drop i = suf →
      ls.drop (i + scanCount t suf) = scanSpec t suf := by
  intro suf
  induction suf with
  | nil =>
    intro ls i hd
    simp [scanCount, scanSpec, hd]
  | cons l rest ih =>
    intro ls i hd
    have hdrop : ls.drop (i + 1) = rest := by
      rw [← List.drop_drop, hd]
      rfl
    by_cases h1 : startsWith (trim l) t = true
    · simp only [scanCount, scanSpec, h1, if_true]
      have harith : i + (scanCount t rest + 1) = (i + 1) + scanCount t rest := by
        omega
      rw [harith]
      exact ih ls (i + 1) hdrop
    · have h1f : startsWith (trim l) t = false := by simpa using h1
      by_cases h2 : trim l = []
      · rw [h2] at h1f
        simp only [scanCount, scanSpec, h2, h1f, Bool.false_eq_true, if_false]
        simpa using hdrop
      · simp only [scanCount, scanSpec, h1f, h2, Bool.false_eq_true, if_false]
        simpa using hd

/-- The value of the while loop as a drop of the kept lines. -/
lemma scanIdx_drop (ls : List Str) (t : Str) (i : Nat) :
    ls.drop (scanIdx ls t i) = scanSpec t (ls.drop i) :=
  scan_drop t (ls.drop i) ls i rfl

/-- The trailing-newline fix-up delivers a newline-terminated string. -/
lemma endsWithNl_ensureNl (s : Str) : endsWithNl (ensureNl s) = true := by
  unfold ensureNl
  by_cases h : endsWithNl s = true
  · rw [if_pos h]
    exact h
  · rw [if_neg h]
    simp [endsWithNl, List.getLast?_concat]

/-- Counterexample to claim C6: the result need not end with a single
trailing newline.  On empty content the replacer returns the bare header,
which itself ends with two newlines (the header's terminator and the
separator blank line), and no collapsing takes place. -/
theorem replaceLine_double_newline :
    replaceLineCommentHeader (s2l "") (makeHeaderForStyle (s2l "H") STYLE_HASH)
      STYLE_HASH = s2l "# H" ++ ['\n', '\n'] := by decide

/-- Claim C6 as amended: the source's line-style replacement implements the
spec's scan-and-reassemble description exactly — skip prefixed lines after
the optional directive line, consume at most the first blank line and stop
there, keep the stopping line when it is neither, rejoin with newlines
behind the directive line (if any) and the header — and the result always
ends with a trailing newline (though not necessarily a single one). -/
theorem replaceLine_matches_spec (content header : Str) (style : LanguageProfile) :
    replaceLineCommentHeader content header style =
      replaceLineSpec content header style ∧
    endsWithNl (replaceLineCommentHeader content header style) = true := by
  constructor
  · unfold replaceLineCommentHeader replaceLineSpec
    cases hl : lines content with
    | nil =>
      simp only [hl, List.head?_nil]
      have h0 : ([] : List Str).drop (scanIdx [] (trim style.pfx) 0) =
          scanSpec (trim style.pfx) [] := by
        simpa using scanIdx_drop [] (trim style.pfx) 0
      rw [h0]
      simp
    | cons fl rest =>
      by_cases hsb : startsWith fl (s2l "#!") = true
      · simp only [hl, List.head?_cons, hsb, if_true]
        have h1 : (fl :: rest).drop (scanIdx (fl :: rest) (trim style.pfx) 1) =
            scanSpec (trim style.pfx) rest := by
          simpa using scanIdx_drop (fl :: rest) (trim style.pfx) 1
        rw [h1]
        simp [List.append_assoc]
      · simp only [hl, List.head?_cons, hsb, Bool.false_eq_true, if_false]
        have h0 : (fl :: rest).drop (scanIdx (fl :: rest) (trim style.pfx) 0) =
            scanSpec (trim style.pfx) (fl :: rest) := by
          simpa using scanIdx_drop (fl :: rest) (trim style.pfx) 0
        rw [h0]
        simp
  · unfold replaceLineCommentHeader
    exact endsWithNl_ensureNl _

/-- Claim C7: the exclusion matcher fires exactly when some path component
either cannot be decoded as text (fail-closed) or textually equals one of
the patterns — equality, not wildcard or substring matching. -/
theorem isExcluded_iff (patterns : List Str) (comps : List (Option Str)) :
    isExcluded patterns comps = true ↔
      ∃ c ∈ comps, c = none ∨ ∃ s, c = some s ∧ s ∈ patterns := by
  induction comps with
  | nil => simp [isExcluded]
  | cons c rest ih =>
    cases c with
    | none => simp [isExcluded]
    | some s =>
      by_cases hp : patterns.contains s = true
      · have hs : s ∈ patterns := by
          simpa [List.contains, List.elem_iff] using hp
        simp only [isExcluded, hp, if_true, true_iff]
        exact ⟨some s, List.mem_cons_self _ _, Or.inr ⟨s, rfl, hs⟩⟩
      · have hs : s ∉ patterns := by
          intro hmem
          exact hp (by simpa [List.contains, List.elem_iff] using hmem)
        simp only [isExcluded, hp, Bool.false_eq_true, if_false, ih]
        constructor
        · rintro ⟨d, hd, hcase⟩
          exact ⟨d, List.mem_cons_of_mem _ hd, hcase⟩
        · rintro ⟨d, hd, hcase⟩
          rcases List.mem_cons.mp hd with hd1 | hd2
          · subst hd1
            rcases hcase with h | ⟨u, hu, humem⟩
            · exact absurd h (by simp)
            · cases Option.some.inj hu
              exact absurd humem hs
          · exact ⟨d, hd2, hcase⟩

/-- Witness for C7 at a concrete pattern set and component list. -/
theorem isExcluded_iff_inst :
    isExcluded [s2l "vendor"] [some (s2l "src"), some (s2l "vendor")] = true ↔
      ∃ c ∈ [some (s2l "src"), some (s2l "vendor")],
        c = none ∨ ∃ s, c = some s ∧ s ∈ [s2l "vendor"] :=
  isExcluded_iff [s2l "vendor"] [some (s2l "src"), some (s2l "vendor")]

/-- Claim C8: with `-f` supplied but the positional `PATHS` omitted, the
configuration stage does not substitute the current directory; it fails at
startup with the no-target-paths error (`main` then exits 1), contradicting
the program's own usage text, which promises a default of the current
directory. -/
theorem missing_paths_fails :
    fromArgs [s2l "-f", s2l "HEADER.txt"] =
      CliOutcome.fail (s2l "No target paths specified. Use '.' for current directory.") := by
  decide

/-- Claim C9: the final path-to-content mapping of a run does not depend on
the order in which the per-file jobs complete.  The single-threaded mode and
any worker-pool interleaving execute permutations of the same dispatch list,
and every permutation produces the identical final mapping: each job reads
and writes only its own path, and the shared engine state is read-only. -/
theorem runSched_perm {α : Type} [DecidableEq α] (raw : Str)
    (styleOf : α → Option LanguageProfile) (s1 s2 : List α) (st : α → Str)
    (hp : s1.Perm s2) :
    runSched raw styleOf s1 st = runSched raw styleOf s2 st := by
  induction hp generalizing st with
  | nil => rfl
  | cons x _ ih =>
    simp only [runSched]
    exact ih _
  | swap x y l =>
    simp only [runSched]
    by_cases hxy : x = y
    · subst hxy
      rfl
    · have hyx : ¬ (y = x) := fun h => hxy h.symm
      have heq : updSt raw styleOf x (updSt raw styleOf y st) =
          updSt raw styleOf y (updSt raw styleOf x st) := by
        funext q
        unfold updSt
        by_cases h1 : q = x
        · subst h1
          simp [hxy, hyx]
        · by_cases h2 : q = y
          · subst h2
            simp [hxy, hyx]
          · simp [h1, h2]
      rw [heq]
  | trans _ _ ih1 ih2 =>
    rw [ih1, ih2]

/-- Witness for C9: two completion orders of the same two files agree. -/
theorem runSched_perm_inst :
    runSched (s2l "H") (fun _ : Nat => some STYLE_HASH) [0, 1]
      (fun _ => s2l "x = 1\n") =
    runSched (s2l "H") (fun _ : Nat => some STYLE_HASH) [1, 0]
      (fun _ => s2l "x = 1\n") :=
  runSched_perm (s2l "H") (fun _ : Nat => some STYLE_HASH) [0, 1] [1, 0]
    (fun _ => s2l "x = 1\n") (List.Perm.swap 1 0 [])

/-- Mapping a CRLF-terminated segment strips exactly the terminator. -/
lemma linesMap_cr (a : Str) : linesMap ((a ++ ['\r']) ++ ['\n']) = a := by
  simp only [linesMap, stripSuffixChar_append]

/-- Splitting a CRLF-encoded content recovers the logical lines. -/
lemma lines_crlf {ls : List Str} (hn : ∀ l ∈ ls, '\n' ∉ l) :
    lines (crlfConcat ls) = ls := by
  induction ls with
  | nil => rfl
  | cons l t ih =>
    have hshape : crlfConcat (l :: t) = (l ++ ['\r']) ++ '\n' :: crlfConcat t := by
      simp [crlfConcat]
    have hnl : '\n' ∉ l ++ ['\r'] := by
      intro hm
      rcases List.mem_append.mp hm with h1 | h2
      · exact hn l (List.mem_cons_self _ _) h1
      · simp at h2
    rw [hshape, lines_append _ hnl, linesMap_cr,
      ih (fun u hu => hn u (List.mem_cons_of_mem _ hu))]

/-- Splitting an LF-encoded content recovers the logical lines. -/
lemma lines_lf {ls : List Str} (hn : ∀ l ∈ ls, '\n' ∉ l)
    (hr : ∀ l ∈ ls, '\r' ∉ l) : lines (lfConcat ls) = ls := by
  induction ls with
  | nil => rfl
  | cons l t ih =>
    have hshape : lfConcat (l :: t) = l ++ '\n' :: lfConcat t := rfl
    rw [hshape, lines_append _ (hn l (List.mem_cons_self _ _)),
      linesMap_clean (hr l (List.mem_cons_self _ _)),
      ih (fun u hu => hn u (List.mem_cons_of_mem _ hu))
        (fun u hu => hr u (List.mem_cons_of_mem _ hu))]

/-- Characters of the newline-ensured output come from the output or are
the appended newline. -/
lemma mem_ensureNl {x : Char} {s : Str} (h : x ∈ ensureNl s) : x ∈ s ∨ x = '\n' := by
  unfold ensureNl at h
  by_cases he : endsWithNl s = true
  · rw [if_pos he] at h
    exact Or.inl h
  · rw [if_neg he] at h
    rcases List.mem_append.mp h with h1 | h2
    · exact Or.inl h1
    · exact Or.inr (by simpa using h2)

/-- Characters of a newline-join come from the lines or are the newline
separator. -/
lemma mem_joinSep {x : Char} {L : List Str} (h : x ∈ joinSep ['\n'] L) :
    x = '\n' ∨ ∃ l ∈ L, x ∈ l := by
  induction L with
  | nil => simp [joinSep] at h
  | cons l t ih =>
    cases t with
    | nil =>
      right
      refine ⟨l, List.mem_singleton_self _, ?_⟩
      simpa [joinSep] using h
    | cons m rest =>
      simp only [joinSep] at h
      rcases List.mem_append.mp h with h1 | h2
      · rcases List.mem_append.mp h1 with h3 | h4
        · exact Or.inr ⟨l, List.mem_cons_self _ _, h3⟩
        · exact Or.inl (by simpa using h4)
      · rcases ih h2 with h5 | ⟨u, hu, hxu⟩
        · exact Or.inl h5
        · exact Or.inr ⟨u, List.mem_cons_of_mem _ hu, hxu⟩

/-- Every character of the line-style replacer's output is a newline, a
header character, or a character of one of the content's lines. -/
lemma replaceLine_mem {x : Char} {content header : Str} {style : LanguageProfile}
    (hx : x ∈ replaceLineCommentHeader content header style) :
    x = '\n' ∨ x ∈ header ∨ ∃ l ∈ lines content, x ∈ l := by
  unfold replaceLineCommentHeader at hx
  cases hl : lines content with
  | nil =>
    rw [hl] at hx
    simp only [List.head?_nil] at hx
    rcases mem_ensureNl hx with hout | hnl
    · rcases List.mem_append.mp hout with h1 | h2
      · rcases List.mem_append.mp h1 with h3 | h4
        · simp at h3
        · exact Or.inr (Or.inl h4)
      · rcases mem_joinSep h2 with h5 | ⟨u, hu, hxu⟩
        · exact Or.inl h5
        · exact absurd (List.mem_of_mem_drop hu) (by simp)
    · exact Or.inl hnl
  | cons fl rest =>
    rw [hl] at hx
    by_cases hsb : startsWith fl (s2l "#!") = true
    · simp only [List.head?_cons, hsb, if_true] at hx
      rcases mem_ensureNl hx with hout | hnl
      · rcases List.mem_append.mp hout with h1 | h2
        · rcases List.mem_append.mp h1 with h3 | h4
          · rcases List.mem_append.mp h3 with h5 | h6
            · exact Or.inr (Or.inr ⟨fl, List.mem_cons_self _ _, h5⟩)
            · exact Or.inl (by simpa using h6)
          · exact Or.inr (Or.inl h4)
        · rcases mem_joinSep h2 with h5 | ⟨u, hu, hxu⟩
          · exact Or.inl h5
          · exact Or.inr (Or.inr ⟨u, List.mem_of_mem_drop hu, hxu⟩)
      · exact Or.inl hnl
    · simp only [List.head?_cons, hsb, Bool.false_eq_true, if_false] at hx
      rcases mem_ensureNl hx with hout | hnl
      · rcases List.mem_append.mp hout with h1 | h2
        · rcases List.mem_append.mp h1 with h3 | h4
          · simp at h3
          · exact Or.inr (Or.inl h4)
        · rcases mem_joinSep h2 with h5 | ⟨u, hu, hxu⟩
          · exact Or.inl h5
          · exact Or.inr (Or.inr ⟨u, List.mem_of_mem_drop hu, hxu⟩)
      · exact Or.inl hnl

/-- Claim C10: the line-style replacer normalizes line endings.  A
CRLF-encoded content produces exactly the output of the corresponding
LF-encoded content (every retained line, directive line included, loses its
trailing carriage return), and for a carriage-return-free header and lines
the output contains no carriage return at all. -/
theorem crlf_normalized (ls : List Str) (header : Str) (style : LanguageProfile)
    (hn : ∀ l ∈ ls, '\n' ∉ l) (hr : ∀ l ∈ ls, '\r' ∉ l)
    (hrh : '\r' ∉ header) :
    replaceLineCommentHeader (crlfConcat ls) header style =
      replaceLineCommentHeader (lfConcat ls) header style ∧
    '\r' ∉ replaceLineCommentHeader (crlfConcat ls) header style := by
  have h1 : lines (crlfConcat ls) = ls := lines_crlf hn
  have h2 : lines (lfConcat ls) = ls := lines_lf hn hr
  constructor
  · unfold replaceLineCommentHeader
    rw [h1, h2]
  · intro hmem
    rcases replaceLine_mem hmem with h | h | ⟨l, hlm, hxl⟩
    · exact absurd h (by decide)
    · exact hrh h
    · rw [h1] at hlm
      exact hr l hlm hxl

/-- Witness for C10 at a concrete CRLF-encoded shell script. -/
theorem crlf_normalized_inst :
    replaceLineCommentHeader (crlfConcat [s2l "#!/bin/sh", s2l "echo hi"])
        (s2l "# H\n\n") STYLE_HASH =
      replaceLineCommentHeader (lfConcat [s2l "#!/bin/sh", s2l "echo hi"])
        (s2l "# H\n\n") STYLE_HASH ∧
    '\r' ∉ replaceLineCommentHeader (crlfConcat [s2l "#!/bin/sh", s2l "echo hi"])
        (s2l "# H\n\n") STYLE_HASH :=
  crlf_normalized [s2l "#!/bin/sh", s2l "echo hi"] (s2l "# H\n\n") STYLE_HASH
    (by decide) (by decide) (by decide)

end Lice
